import Mathlib

/-!
Shallow embedding of `src/rules.py` (ASR-transcript post-processing rules).

Strings are modelled as `List Char`; the regex substitutions of the source are
rendered as explicit left-to-right scanners that mirror the Python `re` engine
(leftmost match, greedy quantifiers with the backtracking the concrete patterns
need, `\b` word boundaries tracked via the word-character status of the previous
original character).  Python's `\w` is modelled as ASCII alphanumeric or `_`,
`\s` as the ASCII whitespace characters, and `str.lower`/`str.upper` as the
ASCII `Char.toLower`/`Char.toUpper` of core Lean, which match the Python
behaviour on the ASCII fragment.  Every recursive scanner takes an explicit
fuel argument (the wrapper supplies `length + 1`, or a generous polynomial for
the backtracking number-phrase matcher, enough for the scan to complete); on
fuel exhaustion the remaining input is returned unchanged.  The fuzzy-match
primitive `rapidfuzz.process.extractOne` is an external capability in the spec
and is modelled as an explicit function parameter `bm` returning the best entry
and its score, `none` when the lexicon is empty.
-/

namespace Rules

/-- Python regex `\s` on the ASCII fragment (` `, tab, newline, CR, VT, FF). -/
def pySpace (c : Char) : Bool :=
  c = ' ' || c = '\t' || c = '\n' || c = '\r' || c = '\x0b' || c = '\x0c'

/-- Python regex word character `\w` on the ASCII fragment: `[a-zA-Z0-9_]`. -/
def pyWordChar (c : Char) : Bool :=
  c.isAlphanum || c = '_'

/-- Length of the maximal leading run of whitespace (a greedy `\s*`). -/
def spaceRun (s : List Char) : Nat :=
  (s.takeWhile pySpace).length

/-- Word boundary after a word character: the next character is absent or not a
word character. -/
def wbAfter (s : List Char) : Bool :=
  match s with
  | [] => true
  | c :: _ => !pyWordChar c

/-- Head of the list is a word character (used for a `\b` after whitespace). -/
def wordCharHead (s : List Char) : Bool :=
  match s with
  | [] => false
  | c :: _ => pyWordChar c

/-- Case-insensitive prefix test: `w` (stored lowercase) matches the start of
`s` up to ASCII lowercasing, as an `re.IGNORECASE` literal does. -/
def ciIsPrefix : List Char → List Char → Bool
  | [], _ => true
  | _ :: _, [] => false
  | a :: as, b :: bs => a = b.toLower && ciIsPrefix as bs

/-- First alternative of a regex alternation `(w1|w2|...)` that matches
case-insensitively at the start of `s` with a word boundary after it; returns
the matched alternative.  Empty alternatives are rejected. -/
def matchAlt : List (List Char) → List Char → Option (List Char)
  | [], _ => none
  | w :: ws, s =>
    if w ≠ [] ∧ ciIsPrefix w s ∧ wbAfter (s.drop w.length) then some w
    else matchAlt ws s

/-- Python `str.strip()`: remove leading and trailing whitespace. -/
def stripWs (s : List Char) : List Char :=
  ((s.dropWhile pySpace).reverse.dropWhile pySpace).reverse

/-- Python `str.split()` (no argument): split on whitespace runs, dropping
empty pieces.  Fueled scan, one word or one whitespace character per step. -/
def splitWsGo : Nat → List Char → List (List Char)
  | 0, _ => []
  | _ + 1, [] => []
  | fuel + 1, c :: rest =>
    if pySpace c then splitWsGo fuel rest
    else (c :: rest.takeWhile (fun x => !pySpace x)) ::
      splitWsGo fuel (rest.dropWhile (fun x => !pySpace x))

/-- Python `str.split()` on a character list. -/
def splitWs (s : List Char) : List (List Char) :=
  splitWsGo (s.length + 1) s

/-- Python `' '.join`: words joined by single spaces. -/
def joinWords : List (List Char) → List Char
  | [] => []
  | [w] => w
  | w :: ws => w ++ ' ' :: joinWords ws

/-- ASCII lowercasing of a whole string, modelling Python `str.lower()`. -/
def lowerStr (s : List Char) : List Char :=
  s.map Char.toLower

end Rules

namespace Rules

/-!  Email rule: `normalize_email` of `src/rules.py`. -/

/-- Number of repetitions matched by the greedy unit `(?:\b[a-zA-Z]\s)` of the
spelled-letter pattern: maximal count of (letter, whitespace) pairs, the inner
word boundaries being automatic after the first pair. -/
def countUnits : List Char → Nat
  | c :: w :: rest => if c.isAlpha && pySpace w then countUnits rest + 1 else 0
  | _ => 0

/-- Replacement text for `n` matched (letter, whitespace) pairs: the Python
replacement removes the `' '` characters of the match (other whitespace such as
a tab would remain, as `str.replace(' ', '')` only removes spaces). -/
def unitsRepl : Nat → List Char → List Char
  | n + 1, c :: w :: rest =>
    c :: ((if w = ' ' then [] else [w]) ++ unitsRepl n rest)
  | _, _ => []

/-- Drop the `2 * n` characters of `n` matched (letter, whitespace) pairs. -/
def dropUnits : Nat → List Char → List Char
  | n + 1, _ :: _ :: rest => dropUnits n rest
  | _, s => s

/-- Scanner for `re.sub(r'(?:\b[a-zA-Z]\s){2,}', match-with-spaces-removed, s)`:
the boolean argument is the word-character status of the previous original
character (for the leading `\b`). -/
def spelledGo : Nat → Bool → List Char → List Char
  | 0, _, s => s
  | _ + 1, _, [] => []
  | fuel + 1, prev, c :: rest =>
    let n := countUnits (c :: rest)
    if !prev && 2 ≤ n then
      unitsRepl n (c :: rest) ++ spelledGo fuel false (dropUnits n (c :: rest))
    else
      c :: spelledGo fuel (pyWordChar c) rest

/-- Attempt, at the current position, a match of `\s*\b(alt1|alt2)\b\s*`
(the shape of every entry of `EMAIL_TOKEN_PATTERNS`): maximal leading
whitespace, the leading `\b` (which forces `¬prev` when no whitespace was
consumed), an alternative with its trailing `\b`, then maximal trailing
whitespace.  Returns the consumed length and whether the last consumed
character is a word character. -/
def tokPatTry (alts : List (List Char)) (prev : Bool) (s : List Char) :
    Option (Nat × Bool) :=
  let k := spaceRun s
  if k = 0 && prev then none
  else
    match matchAlt alts (s.drop k) with
    | none => none
    | some w =>
      let m := spaceRun (s.drop (k + w.length))
      some (k + w.length + m, m = 0)

/-- Scanner for one `re.sub(r'\s*\b(...)\b\s*', sym, s, flags=re.IGNORECASE)`
pass of `EMAIL_TOKEN_PATTERNS`. -/
def tokPatGo (alts : List (List Char)) (sym : Char) :
    Nat → Bool → List Char → List Char
  | 0, _, s => s
  | _ + 1, _, [] => []
  | fuel + 1, prev, c :: rest =>
    match tokPatTry alts prev (c :: rest) with
    | some (n, lastWord) => sym :: tokPatGo alts sym fuel lastWord ((c :: rest).drop n)
    | none => c :: tokPatGo alts sym fuel (pyWordChar c) rest

/-- Scanner for `re.sub(r'([a-zA-Z0-9])(tld)\b', r'\1.\2', s)`: a dot is glued
in front of a known TLD attached to an alphanumeric character. -/
def glueTldGo (tld : List Char) : Nat → List Char → List Char
  | 0, s => s
  | _ + 1, [] => []
  | fuel + 1, c :: rest =>
    if c.isAlphanum && tld.isPrefixOf rest && wbAfter (rest.drop tld.length) then
      c :: '.' :: (tld ++ glueTldGo tld fuel (rest.drop tld.length))
    else
      c :: glueTldGo tld fuel rest

/-- Symbols of the final whitespace-collapsing pattern `\s*([@\._\-])\s*`. -/
def isEmailSym (c : Char) : Bool :=
  c = '@' || c = '.' || c = '_' || c = '-'

/-- Scanner for `re.sub(r'\s*([@\._\-])\s*', r'\1', s)`: whitespace around the
four email symbols is removed.  After the greedy leading `\s*` the next
character (`headD` with a non-symbol placeholder for the empty case) must be
one of the symbols; the trailing `\s*` is then consumed greedily. -/
def symSpaceGo : Nat → List Char → List Char
  | 0, s => s
  | _ + 1, [] => []
  | fuel + 1, c :: rest =>
    let t := (c :: rest).drop (spaceRun (c :: rest))
    if isEmailSym (t.headD '\x00') then
      t.headD '\x00' :: symSpaceGo fuel (t.tail.drop (spaceRun t.tail))
    else c :: symSpaceGo fuel rest

/-- The table `EMAIL_TOKEN_PATTERNS` of the source, in order. -/
def emailTokenPatterns : List (List (List Char) × Char) :=
  [(["at the rate".data, "at".data], '@'),
   (["dot".data], '.'),
   (["underscore".data], '_'),
   (["dash".data, "minus".data], '-'),
   (["plus".data], '+')]

/-- The table `COMMON_TLDS` of the source, in order. -/
def commonTlds : List (List Char) :=
  ["com".data, "net".data, "org".data, "in".data, "co".data, "gov".data, "edu".data]

/-- Faithful rendering of `normalize_email`: lowercase, collapse spelled-out
letters, replace the symbol words, glue dots before attached TLDs, and remove
whitespace around email symbols. -/
def normalize_email (text : String) : String :=
  let s := lowerStr text.data
  let s := spelledGo (s.length + 1) false s
  let s := emailTokenPatterns.foldl
    (fun acc p => tokPatGo p.1 p.2 (acc.length + 1) false acc) s
  let s := commonTlds.foldl
    (fun acc tld => glueTldGo tld (acc.length + 1) acc) s
  ⟨symSpaceGo (s.length + 1) s⟩

end Rules

example : Rules.normalize_email "j o h n at gmail dot com" = "johnat gmail.com" := by decide
example : Rules.normalize_email "johngmailcom" = "johngmail.com" := by decide
example : Rules.normalize_email "w w w dot x" = "wwwdot x" := by decide
example : Rules.normalize_email "x w w w" = "xwww" := by decide

namespace Rules

/-!  Number rule: `convert_words_to_numbers` and `_text2int` of `src/rules.py`. -/

/-- The `word_to_num` table of the source, in its (insertion-ordered) key
order, which is also the alternation order of the regex patterns built from
`word_to_num.keys()`. -/
def unitWords : List (List Char × Nat) :=
  [("zero".data, 0), ("one".data, 1), ("two".data, 2), ("three".data, 3),
   ("four".data, 4), ("five".data, 5), ("six".data, 6), ("seven".data, 7),
   ("eight".data, 8), ("nine".data, 9), ("ten".data, 10), ("eleven".data, 11),
   ("twelve".data, 12), ("thirteen".data, 13), ("fourteen".data, 14),
   ("fifteen".data, 15), ("sixteen".data, 16), ("seventeen".data, 17),
   ("eighteen".data, 18), ("nineteen".data, 19), ("twenty".data, 20),
   ("thirty".data, 30), ("forty".data, 40), ("fifty".data, 50),
   ("sixty".data, 60), ("seventy".data, 70), ("eighty".data, 80),
   ("ninety".data, 90)]

/-- The `multipliers` table of the source, in key order. -/
def multWords : List (List Char × Nat) :=
  [("hundred".data, 100), ("thousand".data, 1000),
   ("lakh".data, 100000), ("crore".data, 10000000)]

/-- Alternation of the `re.findall` emptiness check: all unit and multiplier
words, in table order. -/
def allNumWords : List (List Char) :=
  unitWords.map Prod.fst ++ multWords.map Prod.fst

/-- Alternation of the phrase pattern
`\b((?:unit1|...|mult1|...|and)\s*)+\b`, in pattern order. -/
def allPhraseWords : List (List Char) :=
  allNumWords ++ ["and".data]

/-- Whether `re.findall` of number words over the text is non-empty: some
position carries a whole-word, case-insensitive occurrence of a vocabulary
word.  The boolean argument is the word-character status of the previous
character. -/
def hasNumWordGo : Bool → List Char → Bool
  | _, [] => false
  | prev, c :: rest =>
    (!prev && (matchAlt allNumWords (c :: rest)).isSome) ||
      hasNumWordGo (pyWordChar c) rest

/-- Backtracking matcher for the number-phrase pattern, fueled.  In mode
`true` it tries the remaining alternatives `ws` of one repetition of the group
`((?:alts)\s*)+` against `s` (the `Nat` argument is unused); in mode `false`
it has just matched a word, `s` is the text after that word, and the `Nat`
argument `j` is the amount of trailing `\s*` currently consumed (started at
the maximal run and decremented on backtracking): it first tries another
greedy repetition and otherwise closes the group, accepting if the final `\b`
holds (after the word itself when `j = 0`, after whitespace — requiring a next
word character — when `j > 0`).  Returns the number of characters matched. -/
def phraseGo : Nat → Bool → List (List Char) → List Char → Nat → Option Nat
  | 0, _, _, _, _ => none
  | _ + 1, true, [], _, _ => none
  | fuel + 1, true, w :: ws, s, _ =>
    if w ≠ [] ∧ ciIsPrefix w s then
      match phraseGo fuel false [] (s.drop w.length) (spaceRun (s.drop w.length)) with
      | some n => some (w.length + n)
      | none => phraseGo fuel true ws s 0
    else phraseGo fuel true ws s 0
  | fuel + 1, false, _, t, j =>
    match phraseGo fuel true allPhraseWords (t.drop j) 0 with
    | some m => some (j + m)
    | none =>
      if j = 0 then (if wbAfter t then some 0 else none)
      else if wordCharHead (t.drop j) then some j
      else phraseGo fuel false [] t (j - 1)

/-- Top-level entry of the phrase matcher at one position, with enough fuel
for the backtracking search over a text of this length. -/
def phraseTop (s : List Char) : Option Nat :=
  phraseGo ((s.length + 2) * (s.length + 40)) true allPhraseWords s 0

/-- The accumulator loop of `_text2int`: a unit word adds its value to
`current`; a multiplier word multiplies `current` and, at 1000 and above,
flushes `current` into `result`; anything else (the conjunction `and`, or an
unknown word) is skipped; the final value is `result + current`. -/
def t2iAux : List (List Char) → Nat → Nat → Nat
  | [], cur, res => res + cur
  | w :: ws, cur, res =>
    match unitWords.lookup w with
    | some v => t2iAux ws (cur + v) res
    | none =>
      match multWords.lookup w with
      | some m =>
        if 1000 ≤ m then t2iAux ws 0 (res + cur * m) else t2iAux ws (cur * m) res
      | none => t2iAux ws cur res

/-- Faithful rendering of `_text2int` on an already-tokenized word list. -/
def text2int (ws : List (List Char)) : Nat :=
  t2iAux ws 0 0

/-- Scanner for `re.sub(num_pattern, replace_num_phrase, s, re.IGNORECASE)`:
at every position whose previous character is not a word character, the
backtracking phrase matcher is attempted; on success the matched phrase is
lowercased, split on whitespace and fed to `_text2int`, and its decimal string
replaces the phrase. -/
def numSubGo : Nat → Bool → List Char → List Char
  | 0, _, s => s
  | _ + 1, _, [] => []
  | fuel + 1, prev, c :: rest =>
    if prev then c :: numSubGo fuel (pyWordChar c) rest
    else
      match phraseTop (c :: rest) with
      | some n =>
        let phrase := (c :: rest).take n
        (toString (text2int (splitWs (lowerStr phrase)))).data ++
          numSubGo fuel (pyWordChar (phrase.getLastD ' ')) ((c :: rest).drop n)
      | none => c :: numSubGo fuel (pyWordChar c) rest

/-- Attempt of `\b(double)\s*([a-zA-Z]+)\b` (or `triple`) at one position:
the keyword case-insensitively, optional whitespace, then a maximal non-empty
letter run whose following character must not be a word character (shorter
letter runs or shorter whitespace cannot restore the trailing `\b`, so the
greedy run is the only candidate).  Returns the consumed length and the
letter run. -/
def dupTry (kw : List Char) (s : List Char) : Option (Nat × List Char) :=
  if ciIsPrefix kw s then
    let t := s.drop kw.length
    let k := spaceRun t
    let L := (t.drop k).takeWhile Char.isAlpha
    if 1 ≤ L.length ∧ wbAfter ((t.drop k).drop L.length) then
      some (kw.length + k + L.length, L)
    else none
  else none

/-- Replacement of the double/triple idiom: `reps` copies of the captured
word joined by single spaces. -/
def joinNCopies : Nat → List Char → List Char
  | 0, _ => []
  | 1, L => L
  | n + 2, L => L ++ ' ' :: joinNCopies (n + 1) L

/-- Scanner for the `double`/`triple` substitutions (`re.IGNORECASE`). -/
def dupGo (kw : List Char) (reps : Nat) : Nat → Bool → List Char → List Char
  | 0, _, s => s
  | _ + 1, _, [] => []
  | fuel + 1, prev, c :: rest =>
    if prev then c :: dupGo kw reps fuel (pyWordChar c) rest
    else
      match dupTry kw (c :: rest) with
      | some (n, L) => joinNCopies reps L ++ dupGo kw reps fuel true ((c :: rest).drop n)
      | none => c :: dupGo kw reps fuel (pyWordChar c) rest

/-- Scanner for a whole-word replacement `re.sub(r'\b(alt1|alt2)\b', rep, s,
re.IGNORECASE)`, used for `oh|o → zero` and for the single-digit words. -/
def wordReplGo (alts : List (List Char)) (rep : List Char) :
    Nat → Bool → List Char → List Char
  | 0, _, s => s
  | _ + 1, _, [] => []
  | fuel + 1, prev, c :: rest =>
    if prev then c :: wordReplGo alts rep fuel (pyWordChar c) rest
    else
      match matchAlt alts (c :: rest) with
      | some w =>
        rep ++ wordReplGo alts rep fuel (pyWordChar (w.getLastD ' '))
          ((c :: rest).drop w.length)
      | none => c :: wordReplGo alts rep fuel (pyWordChar c) rest

/-- Python `s.replace("  ", " ")`: non-overlapping left-to-right replacement
of two spaces by one. -/
def replDblSpace : List Char → List Char
  | ' ' :: ' ' :: rest => ' ' :: replDblSpace rest
  | c :: rest => c :: replDblSpace rest
  | [] => []

/-- The digit-word table of the final single-digit pass, in order. -/
def digitWords : List (List Char × List Char) :=
  [("zero".data, "0".data), ("one".data, "1".data), ("two".data, "2".data),
   ("three".data, "3".data), ("four".data, "4".data), ("five".data, "5".data),
   ("six".data, "6".data), ("seven".data, "7".data), ("eight".data, "8".data),
   ("nine".data, "9".data)]

/-- Faithful rendering of `convert_words_to_numbers`: return the text
unchanged when no number word occurs; otherwise expand the `double`/`triple`
idioms, rewrite `oh`/`o` to `zero`, replace maximal number phrases by the
decimal value of `_text2int`, strip, replace remaining isolated digit words,
and collapse double spaces once. -/
def convert_words_to_numbers (text : String) : String :=
  if !hasNumWordGo false text.data then text
  else
    let s := text.data
    let s := dupGo "double".data 2 (s.length + 1) false s
    let s := dupGo "triple".data 3 (s.length + 1) false s
    let s := wordReplGo ["oh".data, "o".data] "zero".data (s.length + 1) false s
    let s := stripWs (numSubGo (s.length + 1) false s)
    let s := digitWords.foldl
      (fun acc p => wordReplGo [p.1] p.2 (acc.length + 1) false acc) s
    ⟨replDblSpace s⟩

end Rules

example : Rules.convert_words_to_numbers "five lakh twenty thousand three hundred" = "520300" := by decide
example : Rules.convert_words_to_numbers "double seven" = "14" := by decide
example : Rules.convert_words_to_numbers "oh nine" = "9" := by decide
example : Rules.convert_words_to_numbers "sixty five" = "65" := by decide
example : Rules.convert_words_to_numbers "hello there" = "hello there" := by decide

namespace Rules

/-!  Currency rule: `format_indian_currency` and `normalize_currency`. -/

/-- Scanner for `re.sub(r'(\d{2})(?=\d)', r'\1,', rest)`: from the left, after
any two digits followed (lookahead, not consumed) by a third digit, a comma is
inserted. -/
def pairCommaSub : List Char → List Char
  | a :: b :: rest =>
    if a.isDigit && b.isDigit && (rest.headD ' ').isDigit then
      a :: b :: ',' :: pairCommaSub rest
    else a :: pairCommaSub (b :: rest)
  | s => s

/-- Faithful rendering of `format_indian_currency`: strip, return non-numeric
or short strings unchanged, otherwise keep the last three digits as one group
and comma-split the remaining leading digits in pairs from the left. -/
def format_indian_currency (s : List Char) : List Char :=
  let t := stripWs s
  if !(decide (t ≠ []) && t.all Char.isDigit) then t
  else if t.length ≤ 3 then t
  else pairCommaSub (t.take (t.length - 3)) ++ ',' :: t.drop (t.length - 3)

/-- Attempt of `(\d[\d,]*\.?\d*)\s*(rupees|rs)\b` at a position holding a
digit: the greedy digit/comma run, then an optional dot with its greedy digit
run, then whitespace, then the currency word with its trailing `\b` (shorter
choices of the greedy runs cannot help, since the characters given back can
never match the following part of the pattern).  Returns the consumed length
and the captured number group. -/
def rupeeTry (c : Char) (rest : List Char) : Option (Nat × List Char) :=
  let A := rest.takeWhile (fun x => x.isDigit || x = ',')
  let t1 := rest.drop A.length
  let dotB :=
    match t1 with
    | '.' :: t1' => '.' :: t1'.takeWhile Char.isDigit
    | _ => []
  let t2 := t1.drop dotB.length
  let k := spaceRun t2
  match matchAlt ["rupees".data, "rs".data] (t2.drop k) with
  | some w => some (1 + A.length + dotB.length + k + w.length, c :: (A ++ dotB))
  | none => none

/-- Scanner for the first substitution of `normalize_currency`
(`... rupees → ₹...`, `re.IGNORECASE`). -/
def rupeeSubGo : Nat → List Char → List Char
  | 0, s => s
  | _ + 1, [] => []
  | fuel + 1, c :: rest =>
    if c.isDigit then
      match rupeeTry c rest with
      | some (n, g) => '₹' :: (g ++ rupeeSubGo fuel ((c :: rest).drop n))
      | none => c :: rupeeSubGo fuel rest
    else c :: rupeeSubGo fuel rest

/-- Scanner for the second substitution of `normalize_currency`
(`₹\s*(\d[\d,]*)` formatted through `format_indian_currency` with the commas
of the capture removed first). -/
def curSymGo : Nat → List Char → List Char
  | 0, s => s
  | _ + 1, [] => []
  | fuel + 1, c :: rest =>
    if c = '₹' then
      let k := spaceRun rest
      match rest.drop k with
      | d :: rest2 =>
        if d.isDigit then
          let A := rest2.takeWhile (fun x => x.isDigit || x = ',')
          '₹' :: (format_indian_currency ((d :: A).filter (fun x => x ≠ ',')) ++
            curSymGo fuel (rest2.drop A.length))
        else c :: curSymGo fuel rest
      | [] => c :: curSymGo fuel rest
    else c :: curSymGo fuel rest

/-- Faithful rendering of `normalize_currency`: rewrite `NUMBER rupees|rs` to
`₹NUMBER`, then regroup every `₹`-prefixed integer with
`format_indian_currency`. -/
def normalize_currency (text : String) : String :=
  let s := rupeeSubGo (text.data.length + 1) text.data
  ⟨curSymGo (s.length + 1) s⟩

end Rules

example : Rules.normalize_currency "1234567 rupees" = "₹12,34,567" := by decide
example : Rules.normalize_currency "500 rupees" = "₹500" := by decide
example : Rules.normalize_currency "123456 rupees" = "₹12,3,456" := by decide
example : Rules.normalize_currency "pay 1,234.56 rs now" = "pay ₹1,234.56 now" := by decide

namespace Rules

/-!  Name rule: `correct_names_with_lexicon`. -/

/-- Python `str.istitle()` on the ASCII fragment: an uppercase letter may only
follow an uncased character, a lowercase letter may only follow a cased one,
and at least one cased character occurs.  The booleans carry whether the
previous character was cased and whether a cased character was seen. -/
def istitleAux : List Char → Bool → Bool → Bool
  | [], _, seen => seen
  | c :: rest, prevCased, seen =>
    if c.isUpper then (if prevCased then false else istitleAux rest true true)
    else if c.isLower then (if prevCased then istitleAux rest true true else false)
    else istitleAux rest false seen

/-- Python `str.istitle()`. -/
def pyIstitle (s : List Char) : Bool :=
  istitleAux s false false

/-- Faithful rendering of `correct_names_with_lexicon`, parameterized by the
external fuzzy-match capability `bm` (the source's
`process.extractOne(t, names_lex, scorer=fuzz.ratio)`, which returns the best
lexicon entry with its score, or nothing for an empty lexicon): title-case
tokens whose best score reaches the threshold are replaced by the matched
entry exactly as stored; every other token passes through.  The source's
`threshold` parameter defaults to 85; the caller `generate_candidates` uses
that default, so it is passed explicitly there. -/
def correct_names_with_lexicon (bm : String → List String → Option (String × Nat))
    (text : String) (names_lex : List String) (threshold : Nat) : String :=
  let toks := splitWs text.data
  let co := toks.map (fun t =>
    if pyIstitle t then
      match bm ⟨t⟩ names_lex with
      | some (e, sc) => if threshold ≤ sc then e.data else t
      | none => t
    else t)
  ⟨joinWords co⟩

/-!  Punctuation rule: `add_final_punctuation_and_capitalization`. -/

/-- Last character is one of the terminal marks (`str.endswith(('.', '?',
'!'))`). -/
def endsTerminal (s : List Char) : Bool :=
  match s.getLast? with
  | some c => c = '.' || c = '?' || c = '!'
  | none => false

/-- The interrogative leading words of the question heuristic. -/
def questionStarts : List (List Char) :=
  ["what".data, "who".data, "where".data, "when".data, "why".data, "how".data,
   "is".data, "can".data, "do".data, "are".data]

/-- Python `s.lower().strip().startswith(questionStarts)`: some interrogative
word is a plain string prefix of the lowercased, stripped text. -/
def startsQuestion (s : List Char) : Bool :=
  questionStarts.any (fun w => w.isPrefixOf (stripWs (lowerStr s)))

/-- Faithful rendering of `add_final_punctuation_and_capitalization`: empty
input stays empty; otherwise the first character is uppercased and, when the
result does not already end in `.`, `?` or `!`, a `?` (interrogative start) or
`.` is appended. -/
def add_final_punctuation_and_capitalization (text : String) : String :=
  match text.data with
  | [] => ""
  | c :: rest =>
    let s := c.toUpper :: rest
    if endsTerminal s then ⟨s⟩
    else if startsQuestion s then ⟨s ++ ['?']⟩
    else ⟨s ++ ['.']⟩

/-!  Candidate generator: `generate_candidates`. -/

/-- Insertion into the candidate set (`candidates.add(...)`): deduplicating,
keeping first-insertion order (the Python `set` iteration order is abstracted
as insertion order; no claim depends on the order of equal candidates). -/
def addCand (l : List String) (s : String) : List String :=
  if s ∈ l then l else l ++ [s]

/-- Stable insertion into a length-descending sorted list: an element is
placed before the first strictly shorter one. -/
def insLenDesc (a : String) : List String → List String
  | [] => [a]
  | b :: t => if b.length ≤ a.length then a :: b :: t else b :: insLenDesc a t

/-- Stable sort by length, descending (`sorted(..., key=len, reverse=True)`). -/
def sortLenDesc (l : List String) : List String :=
  l.foldr insLenDesc []

/-- The final assembly of `generate_candidates`: drop empty strings, sort by
length descending, cap at 8, re-append the original text when the cap or the
filter dropped it, and re-apply the cap. -/
def finalizeCands (cands : List String) (text : String) : List String :=
  let out := cands.filter (fun c => c ≠ "")
  let out := (sortLenDesc out).take 8
  let out := if text ∈ out then out else out ++ [text]
  out.take 8

/-- The candidate set of `generate_candidates` before the final assembly: the
original text, the stepwise pipeline candidates `c1`–`c4`, and the two
conservative variants, inserted in program order. -/
def buildCands (bm : String → List String → Option (String × Nat))
    (text : String) (names_lex : List String) : List String :=
  let cands := [text]
  let c1 := convert_words_to_numbers (normalize_email text)
  let cands := addCand cands c1
  let c2 := normalize_currency c1
  let cands := addCand cands c2
  let c3 := add_final_punctuation_and_capitalization c2
  let cands := addCand cands c3
  let c4 := correct_names_with_lexicon bm c3 names_lex 85
  let cands := addCand cands c4
  let va := add_final_punctuation_and_capitalization text
  let cands := addCand cands va
  let vb := add_final_punctuation_and_capitalization
    (normalize_currency (convert_words_to_numbers text))
  addCand cands vb

/-- Faithful rendering of `generate_candidates`, parameterized by the external
fuzzy-match capability `bm` used by the name rule: the candidate set is
collected by `buildCands` and assembled by `finalizeCands`. -/
def generate_candidates (bm : String → List String → Option (String × Nat))
    (text : String) (names_lex : List String) : List String :=
  finalizeCands (buildCands bm text names_lex) text

end Rules

example : Rules.add_final_punctuation_and_capitalization "really??" = "Really??" := by decide
example : Rules.add_final_punctuation_and_capitalization "what is here" = "What is here?" := by decide
example : Rules.add_final_punctuation_and_capitalization "this is a test" = "This is a test." := by decide
example : Rules.correct_names_with_lexicon (fun _ _ => some ("priya", 100)) "Priya x" ["priya"] 85 = "priya x" := by decide
example : Rules.generate_candidates (fun _ _ => none) "" [] = [""] := by decide
example : Rules.generate_candidates (fun _ _ => none) "hi" [] = ["Hi.", "hi"] := by decide

namespace Rules

/-!  Character-level lemmas about the ASCII case maps. -/

/-- ASCII uppercase letter test, the embedding-level reading of "uppercase
letter" (`A`–`Z`). -/
def pyIsUpper (c : Char) : Bool :=
  decide (65 ≤ c.toNat ∧ c.toNat ≤ 90)

theorem toNat_ofNat_lt {n : Nat} (h : n < 55296) : (Char.ofNat n).toNat = n := by
  have hv : n.isValidChar := Or.inl h
  rw [Char.ofNat, dif_pos hv]
  rfl

theorem toUpper_toNat_of_lower {c : Char} (h : 97 ≤ c.toNat ∧ c.toNat ≤ 122) :
    c.toUpper.toNat = c.toNat - 32 := by
  rw [Char.toUpper]
  simp only [if_pos h]
  exact toNat_ofNat_lt (by omega)

theorem toUpper_eq_self {c : Char} (h : ¬(97 ≤ c.toNat ∧ c.toNat ≤ 122)) :
    c.toUpper = c := by
  rw [Char.toUpper]
  simp only [if_neg h]

theorem toUpper_idem (c : Char) : c.toUpper.toUpper = c.toUpper := by
  by_cases h : 97 ≤ c.toNat ∧ c.toNat ≤ 122
  · have h1 := toUpper_toNat_of_lower h
    exact toUpper_eq_self (by omega)
  · rw [toUpper_eq_self h, toUpper_eq_self h]

theorem toLower_toNat_of_upper {c : Char} (h : 65 ≤ c.toNat ∧ c.toNat ≤ 90) :
    c.toLower.toNat = c.toNat + 32 := by
  rw [Char.toLower]
  simp only [if_pos h]
  exact toNat_ofNat_lt (by omega)

theorem toLower_eq_self {c : Char} (h : ¬(65 ≤ c.toNat ∧ c.toNat ≤ 90)) :
    c.toLower = c := by
  rw [Char.toLower]
  simp only [if_neg h]

theorem pyIsUpper_toLower (c : Char) : pyIsUpper c.toLower = false := by
  by_cases h : 65 ≤ c.toNat ∧ c.toNat ≤ 90
  · have h1 := toLower_toNat_of_upper h
    simp only [pyIsUpper, decide_eq_false_iff_not]
    omega
  · rw [toLower_eq_self h]
    simp only [pyIsUpper, decide_eq_false_iff_not]
    omega

theorem toLower_idem (c : Char) : c.toLower.toLower = c.toLower := by
  apply toLower_eq_self
  have := pyIsUpper_toLower c
  simp only [pyIsUpper, decide_eq_false_iff_not] at this
  exact this

theorem lowerStr_idem (s : List Char) : lowerStr (lowerStr s) = lowerStr s := by
  simp only [lowerStr, List.map_map]
  apply List.map_congr_left
  intro c _
  exact toLower_idem c

end Rules

namespace Rules

/-- C4: the claim expects the phone-number idioms to survive as digit strings
(`"double seven" → "77"`, `"oh nine" → "09"`), but after the idiom expansion
the phrase-level pass matches the whole digit-word run and sums it through
`_text2int`, so the code produces the decimal values 14 and 9 instead. -/
theorem convert_words_double_oh_eval :
    convert_words_to_numbers "double seven" = "14" ∧
      convert_words_to_numbers "oh nine" = "9" := by
  constructor <;> decide

/-- C5: currency grouping.  The even-length example 1234567 comes out in the
correct South Asian grouping, and short numbers stay ungrouped, but the
pair-inserting regex works left to right, so 123456 is grouped as
`₹12,3,456` instead of the right-to-left `₹1,23,456` promised by the claim
(and by the function's own docstring example `1,23,456`). -/
theorem normalize_currency_grouping_eval :
    normalize_currency "1234567 rupees" = "₹12,34,567" ∧
      normalize_currency "500 rupees" = "₹500" ∧
      normalize_currency "123456 rupees" = "₹12,3,456" := by
  refine ⟨by decide, by decide, by decide⟩

/-- C6: the spelled-letter collapse consumes the whitespace after the last
collapsed letter, gluing the run to the following token, so
`"j o h n at gmail dot com"` becomes `"johnat gmail.com"`: the `at → @`
substitution can no longer see a whole word `at` and the claimed
`"john@gmail.com"` is never produced.  The TLD-gluing half of the claim's
example does hold. -/
theorem normalize_email_spelled_run_eval :
    normalize_email "j o h n at gmail dot com" = "johnat gmail.com" ∧
      normalize_email "johngmailcom" = "johngmail.com" := by
  constructor <;> decide

/-- Helper for the punctuation rule: a string whose capitalized form already
ends in a terminal mark is returned with only its first letter uppercased —
no characters are removed or appended. -/
theorem punct_keep (c : Char) (rest : List Char)
    (h : endsTerminal (c.toUpper :: rest) = true) :
    add_final_punctuation_and_capitalization ⟨c :: rest⟩ = ⟨c.toUpper :: rest⟩ := by
  simp only [add_final_punctuation_and_capitalization]
  simp [h]

/-- C7 counterexample: the punctuation rule performs no collapsing of repeated
terminal marks; on `"really??"` it returns `"Really??"`, not the claimed
`"really?"`. -/
theorem punctuation_no_collapse_cex :
    add_final_punctuation_and_capitalization "really??" = "Really??" ∧
      add_final_punctuation_and_capitalization "really??" ≠ "really?" := by
  constructor <;> decide

/-- C7 (amended): the punctuation rule leaves runs of identical terminal
punctuation marks untouched: whenever the capitalized input already ends in
`.`, `?` or `!`, the output is the input with only its first letter
uppercased, so `"really??"` maps to `"Really??"`. -/
theorem punctuation_terminal_preserved (c : Char) (rest : List Char)
    (h : endsTerminal (c.toUpper :: rest) = true) :
    add_final_punctuation_and_capitalization ⟨c :: rest⟩ = ⟨c.toUpper :: rest⟩ :=
  punct_keep c rest h

/-- Witness for the amended C7 theorem at the claim's own input. -/
theorem punctuation_terminal_preserved_witness :
    endsTerminal ('r'.toUpper :: "eally??".data) = true ∧
      add_final_punctuation_and_capitalization ⟨'r' :: "eally??".data⟩ =
        ⟨'r'.toUpper :: "eally??".data⟩ :=
  ⟨by decide, punctuation_terminal_preserved 'r' "eally??".data (by decide)⟩

/-- C8 counterexample: with a lexicon storing the lowercase entry `"priya"`
and a matcher scoring the title-case token `"Priya"` at 100, the rule emits
the stored entry `"priya"` verbatim, not the claimed case-preserving
`"Priya"`. -/
theorem name_rule_verbatim_cex :
    correct_names_with_lexicon (fun _ _ => some ("priya", 100)) "Priya" ["priya"] 85
        = "priya" ∧ ("priya" : String) ≠ "Priya" := by
  constructor <;> decide

/-- C8 (amended): only title-case tokens are eligible for correction, and an
accepted match is emitted exactly as stored in the lexicon, with no case
adjustment; non-title-case tokens (lowercase alphabetic ones included) always
pass through unchanged.  Stated for a single-token text. -/
theorem name_rule_emission (bm : String → List String → Option (String × Nat))
    (thr : Nat) (t e : String) (sc : Nat) (lex : List String)
    (hsplit : splitWs t.data = [t.data]) :
    (pyIstitle t.data = true → bm t lex = some (e, sc) → thr ≤ sc →
      correct_names_with_lexicon bm t lex thr = e) ∧
    (pyIstitle t.data = false → correct_names_with_lexicon bm t lex thr = t) := by
  constructor
  · intro hti hbm hsc
    simp only [correct_names_with_lexicon, hsplit, List.map_cons, List.map_nil, hti,
      if_true]
    rw [show (⟨t.data⟩ : String) = t from rfl, hbm]
    simp only [if_pos hsc, joinWords]
  · intro hti
    simp only [correct_names_with_lexicon, hsplit, List.map_cons, List.map_nil, hti]
    simp [joinWords]

/-- Witness for the amended C8 theorem: the stored lowercase entry is emitted
verbatim for the title-case token `"Priya"`. -/
theorem name_rule_emission_witness :
    splitWs "Priya".data = ["Priya".data] ∧ pyIstitle "Priya".data = true ∧
      correct_names_with_lexicon (fun _ _ => some ("priya", 85)) "Priya" ["priya"] 85
        = "priya" :=
  ⟨by decide, by decide,
    (name_rule_emission (fun _ _ => some ("priya", 85)) 85 "Priya" "priya" 85
      ["priya"] (by decide)).1 (by decide) rfl (by decide)⟩

/-- Helper: a terminal mark appended at the end makes `endsTerminal` true. -/
theorem endsTerminal_concat (c : Char) (l : List Char) (p : Char)
    (hp : p = '?' ∨ p = '.') : endsTerminal (c :: (l ++ [p])) = true := by
  have : c :: (l ++ [p]) = (c :: l) ++ [p] := rfl
  rw [this]
  simp only [endsTerminal, List.getLast?_concat]
  rcases hp with rfl | rfl <;> rfl

/-- Helper: on input whose capitalized form does not end in a terminal mark,
the rule capitalizes and appends `?` or `.` according to the question
heuristic. -/
theorem punct_append (c : Char) (rest : List Char)
    (h : endsTerminal (c.toUpper :: rest) = false) :
    add_final_punctuation_and_capitalization ⟨c :: rest⟩ =
      if startsQuestion (c.toUpper :: rest) then ⟨c.toUpper :: (rest ++ ['?'])⟩
      else ⟨c.toUpper :: (rest ++ ['.'])⟩ := by
  simp only [add_final_punctuation_and_capitalization, h, Bool.false_eq_true,
    if_false, List.cons_append]

/-- C9: the punctuation rule is idempotent: its output always (for non-empty
input) ends in a terminal mark with an already-capitalized first letter, so a
second application changes nothing. -/
theorem punctuation_idempotent (s : String) :
    add_final_punctuation_and_capitalization
        (add_final_punctuation_and_capitalization s) =
      add_final_punctuation_and_capitalization s := by
  obtain ⟨data⟩ := s
  cases data with
  | nil => rfl
  | cons c rest =>
    by_cases h1 : endsTerminal (c.toUpper :: rest) = true
    · rw [punct_keep c rest h1]
      have h2 : endsTerminal (c.toUpper.toUpper :: rest) = true := by
        rw [toUpper_idem]; exact h1
      have e2 := punct_keep c.toUpper rest h2
      rwa [toUpper_idem] at e2
    · have h1' : endsTerminal (c.toUpper :: rest) = false := by
        simpa using h1
      rw [punct_append c rest h1']
      by_cases hq : startsQuestion (c.toUpper :: rest) = true
      · rw [if_pos hq]
        have h3 : endsTerminal (c.toUpper.toUpper :: (rest ++ ['?'])) = true := by
          rw [toUpper_idem]
          exact endsTerminal_concat _ _ _ (Or.inl rfl)
        have e3 := punct_keep c.toUpper (rest ++ ['?']) h3
        rwa [toUpper_idem] at e3
      · rw [if_neg hq]
        have h3 : endsTerminal (c.toUpper.toUpper :: (rest ++ ['.'])) = true := by
          rw [toUpper_idem]
          exact endsTerminal_concat _ _ _ (Or.inr rfl)
        have e3 := punct_keep c.toUpper (rest ++ ['.']) h3
        rwa [toUpper_idem] at e3

/-!  The Number Rule accumulator (claim C3). -/

/-- Helper: a pair of the unit table is found by `lookup` (the unit keys are
pairwise distinct). -/
theorem lookup_unit_of_mem {w : List Char} {v : Nat} (h : (w, v) ∈ unitWords) :
    unitWords.lookup w = some v := by
  fin_cases h <;> rfl

/-- Helper: a multiplier word is absent from the unit table and found in the
multiplier table. -/
theorem lookup_mult_of_mem {w : List Char} {v : Nat} (h : (w, v) ∈ multWords) :
    unitWords.lookup w = none ∧ multWords.lookup w = some v := by
  fin_cases h <;> exact ⟨rfl, rfl⟩

/-- C3: the magnitude accumulation of `_text2int`: a unit word adds its value
to `current`; a multiplier word multiplies `current` by its value and, when
the multiplier is at least 1000 (thousand, lakh, crore), flushes `current`
into `result`; an exhausted run yields `result + current`; and through the
whole pipeline `"five lakh twenty thousand three hundred"` is rewritten to
`"520300"`. -/
theorem text2int_accumulation :
    (∀ w v ws cur res, (w, v) ∈ unitWords →
      t2iAux (w :: ws) cur res = t2iAux ws (cur + v) res) ∧
    (∀ w v ws cur res, (w, v) ∈ multWords → 1000 ≤ v →
      t2iAux (w :: ws) cur res = t2iAux ws 0 (res + cur * v)) ∧
    (∀ w v ws cur res, (w, v) ∈ multWords → v < 1000 →
      t2iAux (w :: ws) cur res = t2iAux ws (cur * v) res) ∧
    (∀ cur res, t2iAux [] cur res = res + cur) ∧
    convert_words_to_numbers "five lakh twenty thousand three hundred" = "520300" := by
  refine ⟨?_, ?_, ?_, fun cur res => rfl, by decide⟩
  · intro w v ws cur res h
    rw [t2iAux, lookup_unit_of_mem h]
  · intro w v ws cur res h hv
    obtain ⟨h1, h2⟩ := lookup_mult_of_mem h
    rw [t2iAux, h1, h2]
    simp only [if_pos hv]
  · intro w v ws cur res h hv
    obtain ⟨h1, h2⟩ := lookup_mult_of_mem h
    rw [t2iAux, h1, h2]
    simp only [if_neg (by omega : ¬ 1000 ≤ v)]

/-- Witness for C3 at concrete inputs: `five` adds 5 to the accumulator,
`lakh` (a multiplier of at least 1000) flushes `5 * 100000` into the result,
and `hundred` (below 1000) multiplies without flushing. -/
theorem text2int_accumulation_witness :
    t2iAux ["five".data] 0 0 = t2iAux [] (0 + 5) 0 ∧
      t2iAux ["lakh".data] 5 0 = t2iAux [] 0 (0 + 5 * 100000) ∧
      t2iAux ["hundred".data] 3 520000 = t2iAux [] (3 * 100) 520000 :=
  ⟨text2int_accumulation.1 "five".data 5 [] 0 0 (by decide),
   text2int_accumulation.2.1 "lakh".data 100000 [] 5 0 (by decide) (by decide),
   text2int_accumulation.2.2.1 "hundred".data 100 [] 3 520000 (by decide) (by decide)⟩

/-!  The candidate-generator assembly (claims C1 and C2). -/

theorem addCand_length_le {l : List String} {n : Nat} (h : l.length ≤ n)
    (s : String) : (addCand l s).length ≤ n + 1 := by
  rw [addCand]
  split
  · omega
  · simp only [List.length_append, List.length_singleton]
    omega

theorem addCand_nodup {l : List String} (h : l.Nodup) (s : String) :
    (addCand l s).Nodup := by
  rw [addCand]
  split
  · exact h
  · next hs => simp [List.nodup_append, h, hs]

theorem buildCands_length (bm : String → List String → Option (String × Nat))
    (text : String) (lex : List String) : (buildCands bm text lex).length ≤ 7 := by
  unfold buildCands
  exact addCand_length_le (addCand_length_le (addCand_length_le (addCand_length_le
    (addCand_length_le (addCand_length_le (by simp) _) _) _) _) _) _

theorem buildCands_nodup (bm : String → List String → Option (String × Nat))
    (text : String) (lex : List String) : (buildCands bm text lex).Nodup := by
  unfold buildCands
  exact addCand_nodup (addCand_nodup (addCand_nodup (addCand_nodup (addCand_nodup
    (addCand_nodup (List.nodup_singleton text) _) _) _) _) _) _

theorem insLenDesc_perm (a : String) (l : List String) :
    (insLenDesc a l).Perm (a :: l) := by
  induction l with
  | nil => exact List.Perm.refl _
  | cons b t ih =>
    rw [insLenDesc]
    split
    · exact List.Perm.refl _
    · exact (ih.cons b).trans (List.Perm.swap a b t)

theorem sortLenDesc_perm (l : List String) : (sortLenDesc l).Perm l := by
  induction l with
  | nil => exact List.Perm.refl _
  | cons x t ih => exact (insLenDesc_perm x (sortLenDesc t)).trans (ih.cons x)

theorem mem_finalize_self {cands : List String} (text : String)
    (h : cands.length ≤ 7) : text ∈ finalizeCands cands text := by
  unfold finalizeCands
  dsimp only
  have hlen2 : (sortLenDesc (cands.filter (fun c => c ≠ ""))).length ≤ 7 := by
    rw [(sortLenDesc_perm _).length_eq]
    exact le_trans (List.length_filter_le _ _) h
  rw [List.take_of_length_le (le_trans hlen2 (by omega))]
  by_cases hmem : text ∈ sortLenDesc (cands.filter (fun c => c ≠ ""))
  · rw [if_pos hmem, List.take_of_length_le (le_trans hlen2 (by omega))]
    exact hmem
  · have hlen3 : (sortLenDesc (cands.filter (fun c => c ≠ "")) ++ [text]).length ≤ 8 := by
      simp only [List.length_append, List.length_singleton]
      omega
    rw [if_neg hmem, List.take_of_length_le hlen3]
    exact List.mem_append_right _ (by simp)

theorem finalize_length {cands : List String} (text : String)
    (h : cands.length ≤ 7) : 1 ≤ (finalizeCands cands text).length ∧
      (finalizeCands cands text).length ≤ 8 := by
  unfold finalizeCands
  dsimp only
  have hlen2 : (sortLenDesc (cands.filter (fun c => c ≠ ""))).length ≤ 7 := by
    rw [(sortLenDesc_perm _).length_eq]
    exact le_trans (List.length_filter_le _ _) h
  rw [List.take_of_length_le (le_trans hlen2 (by omega))]
  by_cases hmem : text ∈ sortLenDesc (cands.filter (fun c => c ≠ ""))
  · rw [if_pos hmem, List.take_of_length_le (le_trans hlen2 (by omega))]
    have hne : sortLenDesc (cands.filter (fun c => c ≠ "")) ≠ [] :=
      List.ne_nil_of_mem hmem
    have : (sortLenDesc (cands.filter (fun c => c ≠ ""))).length ≠ 0 := by
      simpa [List.length_eq_zero] using hne
    omega
  · have hlen3 : (sortLenDesc (cands.filter (fun c => c ≠ "")) ++ [text]).length ≤ 8 := by
      simp only [List.length_append, List.length_singleton]
      omega
    rw [if_neg hmem, List.take_of_length_le hlen3]
    simp only [List.length_append, List.length_singleton]
    omega

theorem finalize_nodup {cands : List String} (text : String)
    (h : cands.Nodup) : (finalizeCands cands text).Nodup := by
  unfold finalizeCands
  dsimp only
  have h1 : (cands.filter (fun c => c ≠ "")).Nodup := h.filter _
  have h2 : (sortLenDesc (cands.filter (fun c => c ≠ ""))).Nodup :=
    (sortLenDesc_perm _).symm.nodup h1
  have h3 : ((sortLenDesc (cands.filter (fun c => c ≠ ""))).take 8).Nodup :=
    h2.sublist (List.take_sublist _ _)
  apply List.Nodup.sublist (List.take_sublist _ _)
  split
  · exact h3
  · next hmem =>
    rw [List.nodup_append]
    refine ⟨h3, List.nodup_singleton _, ?_⟩
    rw [List.disjoint_singleton]
    exact hmem

theorem mem_finalize {cands : List String} {text c : String}
    (h : c ∈ finalizeCands cands text) :
    c ∈ cands.filter (fun x => x ≠ "") ∨ c = text := by
  unfold finalizeCands at h
  dsimp only at h
  have h1 := List.take_subset _ _ h
  have htake := List.take_subset 8 (sortLenDesc (cands.filter (fun x => x ≠ "")))
  split at h1
  · exact Or.inl ((sortLenDesc_perm _).subset (htake h1))
  · rcases List.mem_append.mp h1 with h2 | h2
    · exact Or.inl ((sortLenDesc_perm _).subset (htake h2))
    · exact Or.inr (List.mem_singleton.mp h2)

/-- C1: for every matcher, input text and lexicon, the original text is an
element of the returned candidate list: the candidate set holds at most 7
strings, so the length-sorted cap at 8 never truncates, and the explicit
re-append step restores the text whenever the empty-string filter dropped
it. -/
theorem generate_candidates_contains_original
    (bm : String → List String → Option (String × Nat)) (text : String)
    (lex : List String) : text ∈ generate_candidates bm text lex := by
  unfold generate_candidates
  exact mem_finalize_self text (buildCands_length bm text lex)

/-- C2 counterexample: on empty input every pipeline stage returns the empty
string, the filter drops it, and the re-append step restores it, so the
returned list is `[""]`, whose single element is empty — contradicting the
claim that every element is non-empty even for empty input. -/
theorem generate_candidates_empty_input_cex :
    generate_candidates (fun _ _ => none) "" [] = [""] ∧
      ("" : String) ∈ generate_candidates (fun _ _ => none) "" [] := by
  constructor <;> decide

/-- C2 (amended): the returned list always has between 1 and 8 elements and no
duplicates, and all its elements are non-empty whenever the input text itself
is non-empty (for empty input the list is exactly `[""]`, the re-appended
original). -/
theorem generate_candidates_bounds
    (bm : String → List String → Option (String × Nat)) (text : String)
    (lex : List String) :
    (1 ≤ (generate_candidates bm text lex).length ∧
      (generate_candidates bm text lex).length ≤ 8) ∧
    (generate_candidates bm text lex).Nodup ∧
    (text ≠ "" → ∀ c ∈ generate_candidates bm text lex, c ≠ "") := by
  refine ⟨finalize_length text (buildCands_length bm text lex),
    finalize_nodup text (buildCands_nodup bm text lex), ?_⟩
  intro ht c hc
  rcases mem_finalize hc with hin | rfl
  · simpa using List.of_mem_filter hin
  · exact ht

/-- Witness for the amended C2 bounds on a concrete non-empty input. -/
theorem generate_candidates_bounds_witness :
    ("hi" : String) ≠ "" ∧
      (∀ c ∈ generate_candidates (fun _ _ => none) "hi" [], c ≠ "") ∧
      (generate_candidates (fun _ _ => none) "hi" []).length ≤ 8 :=
  ⟨by decide,
   (generate_candidates_bounds (fun _ _ => none) "hi" []).2.2 (by decide),
   (generate_candidates_bounds (fun _ _ => none) "hi" []).1.2⟩

end Rules

namespace Rules

/-!  Lowercase preservation through the email rule (claim C10). -/

/-- A string with no ASCII uppercase letter. -/
abbrev NoUpper (s : List Char) : Prop :=
  ∀ c ∈ s, pyIsUpper c = false

theorem noUpper_lowerStr (s : List Char) : NoUpper (lowerStr s) := by
  intro c hc
  simp only [lowerStr, List.mem_map] at hc
  obtain ⟨a, _, rfl⟩ := hc
  exact pyIsUpper_toLower a

theorem unitsRepl_subset : ∀ (n : Nat) (s : List Char), unitsRepl n s ⊆ s := by
  intro n
  induction n with
  | zero => intro s; simp [unitsRepl]
  | succ n ih =>
    intro s
    rcases s with _ | ⟨c, _ | ⟨w, rest⟩⟩
    · simp [unitsRepl]
    · simp [unitsRepl]
    · simp only [unitsRepl]
      intro x hx
      rcases List.mem_cons.mp hx with rfl | hx
      · exact List.mem_cons_self _ _
      · rcases List.mem_append.mp hx with hx | hx
        · refine List.mem_cons_of_mem _ ?_
          split at hx
          · cases hx
          · rw [List.mem_singleton.mp hx]
            exact List.mem_cons_self _ _
        · exact List.mem_cons_of_mem _ (List.mem_cons_of_mem _ (ih rest hx))

theorem dropUnits_subset : ∀ (n : Nat) (s : List Char), dropUnits n s ⊆ s := by
  intro n
  induction n with
  | zero => intro s; simp [dropUnits]
  | succ n ih =>
    intro s
    rcases s with _ | ⟨c, _ | ⟨w, rest⟩⟩
    · simp [dropUnits]
    · simp [dropUnits]
    · simp only [dropUnits]
      exact fun x hx =>
        List.mem_cons_of_mem _ (List.mem_cons_of_mem _ (ih rest hx))

theorem noUpper_spelledGo (fuel : Nat) :
    ∀ (prev : Bool) (s : List Char), NoUpper s → NoUpper (spelledGo fuel prev s) := by
  induction fuel with
  | zero => intro prev s h; simpa [spelledGo] using h
  | succ fuel ih =>
    intro prev s h
    cases s with
    | nil => intro x hx; simp [spelledGo] at hx
    | cons c rest =>
      intro x hx
      simp only [spelledGo] at hx
      split at hx
      · rcases List.mem_append.mp hx with hx | hx
        · exact h x (unitsRepl_subset _ _ hx)
        · exact ih false _ (fun y hy => h y (dropUnits_subset _ _ hy)) x hx
      · rcases List.mem_cons.mp hx with rfl | hx
        · exact h x (List.mem_cons_self _ _)
        · exact ih (pyWordChar c) rest (fun y hy => h y (List.mem_cons_of_mem _ hy)) x hx

theorem noUpper_tokPatGo (alts : List (List Char)) (sym : Char)
    (hsym : pyIsUpper sym = false) (fuel : Nat) :
    ∀ (prev : Bool) (s : List Char), NoUpper s → NoUpper (tokPatGo alts sym fuel prev s) := by
  induction fuel with
  | zero => intro prev s h; simpa [tokPatGo] using h
  | succ fuel ih =>
    intro prev s h
    cases s with
    | nil => intro x hx; simp [tokPatGo] at hx
    | cons c rest =>
      intro x hx
      simp only [tokPatGo] at hx
      split at hx
      · rcases List.mem_cons.mp hx with rfl | hx
        · exact hsym
        · exact ih _ _ (fun y hy => h y (List.drop_subset _ _ hy)) x hx
      · rcases List.mem_cons.mp hx with rfl | hx
        · exact h x (List.mem_cons_self _ _)
        · exact ih (pyWordChar c) rest (fun y hy => h y (List.mem_cons_of_mem _ hy)) x hx

theorem noUpper_glueTldGo (tld : List Char) (htld : NoUpper tld) (fuel : Nat) :
    ∀ (s : List Char), NoUpper s → NoUpper (glueTldGo tld fuel s) := by
  induction fuel with
  | zero => intro s h; simpa [glueTldGo] using h
  | succ fuel ih =>
    intro s h
    cases s with
    | nil => intro x hx; simp [glueTldGo] at hx
    | cons c rest =>
      intro x hx
      simp only [glueTldGo] at hx
      split at hx
      · rcases List.mem_cons.mp hx with rfl | hx
        · exact h x (List.mem_cons_self _ _)
        · rcases List.mem_cons.mp hx with rfl | hx
          · simp [pyIsUpper]
          · rcases List.mem_append.mp hx with hx | hx
            · exact htld x hx
            · exact ih _ (fun y hy => h y (List.mem_cons_of_mem _ (List.drop_subset _ _ hy))) x hx
      · rcases List.mem_cons.mp hx with rfl | hx
        · exact h x (List.mem_cons_self _ _)
        · exact ih rest (fun y hy => h y (List.mem_cons_of_mem _ hy)) x hx

theorem noUpper_symSpaceGo (fuel : Nat) :
    ∀ (s : List Char), NoUpper s → NoUpper (symSpaceGo fuel s) := by
  induction fuel with
  | zero => intro s h; simpa [symSpaceGo] using h
  | succ fuel ih =>
    intro s h
    cases s with
    | nil => intro x hx; simp [symSpaceGo] at hx
    | cons c rest =>
      intro x hx
      simp only [symSpaceGo] at hx
      have hdropSub : ∀ y ∈ (c :: rest).drop (spaceRun (c :: rest)), y ∈ c :: rest :=
        fun y hy => List.drop_subset _ _ hy
      split at hx
      · rename_i hif
        rcases List.mem_cons.mp hx with rfl | hx
        · refine h _ (hdropSub _ ?_)
          rcases hd : (c :: rest).drop (spaceRun (c :: rest)) with _ | ⟨a, t2⟩
          · rw [hd] at hif
            simp [isEmailSym] at hif
          · simp
        · refine ih _ (fun y hy => h y (hdropSub y ?_)) x hx
          exact List.tail_subset _ (List.drop_subset _ _ hy)
      · rcases List.mem_cons.mp hx with rfl | hx
        · exact h x (List.mem_cons_self _ _)
        · exact ih rest (fun y hy => h y (List.mem_cons_of_mem _ hy)) x hx

theorem noUpper_tokPatFold :
    ∀ (pats : List (List (List Char) × Char)) (s : List Char),
      (∀ p ∈ pats, pyIsUpper p.2 = false) → NoUpper s →
      NoUpper (pats.foldl (fun acc p => tokPatGo p.1 p.2 (acc.length + 1) false acc) s) := by
  intro pats
  induction pats with
  | nil => intro s _ h; simpa using h
  | cons p ps ih =>
    intro s hp h
    simp only [List.foldl_cons]
    exact ih _ (fun q hq => hp q (List.mem_cons_of_mem _ hq))
      (noUpper_tokPatGo p.1 p.2 (hp p (List.mem_cons_self _ _)) _ false s h)

theorem noUpper_glueFold :
    ∀ (tlds : List (List Char)) (s : List Char),
      (∀ t ∈ tlds, NoUpper t) → NoUpper s →
      NoUpper (tlds.foldl (fun acc tld => glueTldGo tld (acc.length + 1) acc) s) := by
  intro tlds
  induction tlds with
  | nil => intro s _ h; simpa using h
  | cons t ts ih =>
    intro s ht h
    simp only [List.foldl_cons]
    exact ih _ (fun q hq => ht q (List.mem_cons_of_mem _ hq))
      (noUpper_glueTldGo t (ht t (List.mem_cons_self _ _)) _ s h)

/-- C10: `normalize_email` lowercases its whole input before any rewriting:
it is insensitive to the case of its input, and no ASCII uppercase letter ever
occurs in its output. -/
theorem normalize_email_lowercase (t : String) :
    normalize_email t = normalize_email ⟨lowerStr t.data⟩ ∧
      ∀ c ∈ (normalize_email t).data, pyIsUpper c = false := by
  constructor
  · unfold normalize_email
    dsimp only
    rw [lowerStr_idem]
  · unfold normalize_email
    dsimp only
    exact noUpper_symSpaceGo _ _
      (noUpper_glueFold commonTlds _ (by decide)
        (noUpper_tokPatFold emailTokenPatterns _ (by decide)
          (noUpper_spelledGo _ false _ (noUpper_lowerStr t.data))))

/-- Witness for C10 at a concrete mixed-case input. -/
theorem normalize_email_lowercase_witness :
    normalize_email "Ab" = normalize_email ⟨lowerStr "Ab".data⟩ ∧
      pyIsUpper 'a' = false :=
  ⟨(normalize_email_lowercase "Ab").1,
   (normalize_email_lowercase "Ab").2 'a' (by decide)⟩

end Rules
